import Mathlib

/-!
Verification of the query compiler and YAML tree adapter of the
trustfall-serde-yaml repository (src/lib.rs), as a shallow embedding.

The embedding follows the source:
* the parsed KDL query tree (`KdlDocument`, `KdlNode`) with the compiler
  `construct_edges` and `Query::iquery_and_arguments`;
* the parsed YAML value tree (`YamlValue`, serde_yaml 0.9 semantics) with the
  adapter capabilities `resolve_property` and `resolve_neighbors`;
* the execution facade `run`.

`BTreeMap` values are modelled as association lists whose `insert` replaces
the value of an existing key in place and appends fresh keys at the end.
Every key the compiler inserts into the vertex and edge maps is allocated in
strictly increasing order, so these lists are also in ascending key order,
matching the iteration order of the original `BTreeMap`.
-/

/-! ### Association-list model of BTreeMap -/

/-- Lookup in an association list (first entry whose key matches). -/
def alGet {α β : Type} [DecidableEq α] : List (α × β) → α → Option β
  | [], _ => none
  | kv :: rest, k => if kv.1 = k then some kv.2 else alGet rest k

/-- `BTreeMap::insert`: replace the value of an existing key in place,
otherwise append the new entry at the end. -/
def alInsert {α β : Type} [DecidableEq α] : List (α × β) → α → β → List (α × β)
  | [], k, v => [(k, v)]
  | kv :: rest, k, v => if kv.1 = k then (k, v) :: rest else kv :: alInsert rest k v

/-- `BTreeMap::extend`: insert every entry of `m2` into `m`. -/
def alExtend {α β : Type} [DecidableEq α] (m m2 : List (α × β)) : List (α × β) :=
  m2.foldl (fun acc kv => alInsert acc kv.1 kv.2) m

/-- The keys of an association list. -/
def alKeys {α β : Type} (m : List (α × β)) : List α := m.map Prod.fst

/-- The value attached to the last entry of `l` carrying key `k`, if any.
Used to describe which of several same-keyed insertions survives. -/
def lookup_last {α β : Type} [DecidableEq α] : List (α × β) → α → Option β
  | [], _ => none
  | kv :: rest, k =>
    match lookup_last rest k with
    | some v => some v
    | none => if kv.1 = k then some kv.2 else none

/-! ### The parsed KDL query tree

`kdl::KdlDocument` is a list of nodes; a `kdl::KdlNode` has a name, a list of
entries and an optional child document.  The compiler only ever reads an
entry through `entry.value().to_string()`, so an entry is modelled as that
rendered text (for a KDL string literal this includes the surrounding
quotation marks, e.g. `"@name"`).  The `Option` around the child document is
kept as a dedicated constructor pair so that the three types form a plain
mutual inductive family. -/

mutual
inductive KdlNode : Type where
  | mk : String → List String → OptChildren → KdlNode
inductive OptChildren : Type where
  | none : OptChildren
  | some : KdlDocument → OptChildren
inductive KdlDocument : Type where
  | nil : KdlDocument
  | cons : KdlNode → KdlDocument → KdlDocument
end

mutual
/-- Number of nodes of a document, counting nested children. -/
def doc_count : KdlDocument → Nat
  | .nil => 0
  | .cons n rest => node_count n + doc_count rest
/-- Number of nodes contributed by one node (itself plus its children). -/
def node_count : KdlNode → Nat
  | .mk _ _ c => 1 + children_count c
/-- Number of nodes of an optional child document. -/
def children_count : OptChildren → Nat
  | .none => 0
  | .some d => doc_count d
end

/-! ### The IR records (trustfall_core::ir)

Only the fields this crate ever sets are given structure; fields that are
always empty in this crate (`filters`, `parameters`) keep a placeholder list
type, and the GraphQL value type is kept as its source text (the code always
stores `Type::new("String")`). -/

structure IRVertex : Type where
  vid : Nat
  type_name : String
  coerced_from_type : Option String
  filters : List Unit
deriving DecidableEq, Repr

structure IREdge : Type where
  eid : Nat
  from_vid : Nat
  to_vid : Nat
  edge_name : String
  parameters : List (String × String)
  optional : Bool
  recursive : Option Unit
deriving DecidableEq, Repr

/-- `trustfall_core::ir::Output`: a named output column anchored at a vertex. -/
structure TFOutput : Type where
  name : String
  value_type : String
  vid : Nat
deriving DecidableEq, Repr

/-- `trustfall_core::ir::ContextField` as built in `iquery_and_arguments`. -/
structure ContextField : Type where
  vertex_id : Nat
  field_name : String
  field_type : String
deriving DecidableEq, Repr

/-! ### The output-binding extraction (src/lib.rs lines 150-168) -/

/-- Rust `str::strip_prefix`. -/
def strip_front (p s : String) : Option String :=
  if s.take p.length = p then some (s.drop p.length) else none

/-- Rust `str::strip_suffix`. -/
def strip_back (p s : String) : Option String :=
  if s.takeRight p.length = p then some (s.dropRight p.length) else none

/-- Rust `str::starts_with`. -/
def starts_with (p s : String) : Bool := s.take p.length == p

/-- The label under which a recognized leaf value is recorded:
`v.strip_prefix("\"@").and_then(|v| v.strip_suffix("\"")).unwrap_or(&v)`. -/
def output_label (v : String) : String :=
  ((strip_front "\"@" v).bind (fun w => strip_back "\"" w)).getD v

/-- The recognition test: `v.starts_with("\"@")`. -/
def output_recognized (v : String) : Bool := starts_with "\"@" v

/-- The result record of one `construct_edges` call, with the two id makers
modelled as explicit counters threaded through the recursion (`vidNext` and
`eidNext` are the values the makers would produce next). -/
structure CERes : Type where
  vertices : List (Nat × IRVertex)
  edges : List (Nat × IREdge)
  outputs : List (String × TFOutput)
  vidNext : Nat
  eidNext : Nat
deriving DecidableEq, Repr

/-! ### The compiler `construct_edges` (src/lib.rs lines 125-193)

For each node of the document in order: allocate a vertex id, insert the
vertex record; if the first entry's rendered value starts with `"@`, insert
an output binding keyed by the extracted label whose `vid` is the
`parent_vid` argument; allocate an edge id and insert the edge from
`parent_vid` to the fresh vertex; then recurse into the node's children with
the fresh vertex id as parent and merge the returned maps. -/

mutual
def construct_edges : KdlDocument → Nat → Nat → Nat → CERes
  | .nil, _, vn, en => ⟨[], [], [], vn, en⟩
  | .cons node rest, parent_vid, vn, en =>
    let r1 := construct_node node parent_vid vn en
    let r2 := construct_edges rest parent_vid r1.vidNext r1.eidNext
    ⟨alExtend r1.vertices r2.vertices, alExtend r1.edges r2.edges,
      alExtend r1.outputs r2.outputs, r2.vidNext, r2.eidNext⟩
def construct_node : KdlNode → Nat → Nat → Nat → CERes
  | .mk name entries children, parent_vid, vn, en =>
    let next_vid := vn
    let vertices := alInsert [] next_vid ⟨next_vid, "node", none, []⟩
    let outputs : List (String × TFOutput) :=
      match entries.head? with
      | some v =>
        if output_recognized v then
          alInsert [] (output_label v) ⟨name, "String", parent_vid⟩
        else []
      | none => []
    let parent_to_needle := en
    let edges := alInsert [] parent_to_needle
      ⟨parent_to_needle, parent_vid, next_vid, name, [], false, none⟩
    let r := construct_children children next_vid (vn + 1) (en + 1)
    ⟨alExtend vertices r.vertices, alExtend edges r.edges,
      alExtend outputs r.outputs, r.vidNext, r.eidNext⟩
def construct_children : OptChildren → Nat → Nat → Nat → CERes
  | .none, _, vn, en => ⟨[], [], [], vn, en⟩
  | .some d, parent_vid, vn, en => construct_edges d parent_vid vn en
end

/-- Bookkeeping facts of one compiler call over a (sub)tree holding `cnt`
nodes: the id counters advance by `cnt`; the vertex keys are exactly the
`cnt` vertex ids allocated from `vn` on, in allocation (document) order; the
edge keys are likewise the `cnt` edge ids allocated from `en` on and their
target vertices, in edge order, are exactly the allocated vertex ids; every
vertex record carries its key as its `vid`; every edge carries its key as
its `eid` and starts at the call's parent or at a vertex allocated within
the call; every output binding is anchored at the call's parent or at a
vertex allocated within the call, and the output keys are duplicate-free. -/
def CEShape (r : CERes) (parent_vid vn en cnt : Nat) : Prop :=
  r.vidNext = vn + cnt ∧
  r.eidNext = en + cnt ∧
  alKeys r.vertices = List.range' vn cnt ∧
  alKeys r.edges = List.range' en cnt ∧
  r.edges.map (fun kv => kv.2.to_vid) = List.range' vn cnt ∧
  (∀ kv ∈ r.vertices, kv.2 = ⟨kv.1, "node", none, []⟩) ∧
  (∀ kv ∈ r.edges, kv.2.eid = kv.1 ∧
    (kv.2.from_vid = parent_vid ∨
      (vn ≤ kv.2.from_vid ∧ kv.2.from_vid < vn + cnt))) ∧
  (∀ kv ∈ r.outputs, kv.2.vid = parent_vid ∨
    (vn ≤ kv.2.vid ∧ kv.2.vid < vn + cnt)) ∧
  (alKeys r.outputs).Nodup

/-! ### The per-node output emissions, in document order

A second description of the output bindings, written after the words of the
specification (section 4.1): walking the nodes in document (depth-first,
sibling) order with the same vertex-id allocation as the compiler, each node
whose first leaf value is recognized emits one binding whose field is the
node's own name and whose vertex id is the `parentVertexId` of the recursive
call — not the vertex id freshly allocated for the node itself.  Unlike the
compiler this keeps every emission as a flat list in emission order, which
lets the final map contents be described exactly. -/

mutual
def bindings_doc : KdlDocument → Nat → Nat → List (String × TFOutput) × Nat
  | .nil, _, vn => ([], vn)
  | .cons node rest, parent_vid, vn =>
    let r1 := bindings_node node parent_vid vn
    let r2 := bindings_doc rest parent_vid r1.2
    (r1.1 ++ r2.1, r2.2)
def bindings_node : KdlNode → Nat → Nat → List (String × TFOutput) × Nat
  | .mk name entries children, parent_vid, vn =>
    let own : List (String × TFOutput) :=
      match entries.head? with
      | some v =>
        if output_recognized v then
          [(output_label v, ⟨name, "String", parent_vid⟩)]
        else []
      | none => []
    let r := bindings_children children vn (vn + 1)
    (own ++ r.1, r.2)
def bindings_children : OptChildren → Nat → Nat → List (String × TFOutput) × Nat
  | .none, _, vn => ([], vn)
  | .some d, parent_vid, vn => bindings_doc d parent_vid vn
end

/-! ### Assembly of the IR query (src/lib.rs lines 196-256) -/

/-- The `IRQuery` assembled by `iquery_and_arguments` before its conversion
into an `IndexedQuery` (only the parts this crate fills in; `variables` is
always empty and `root_parameters` the default). -/
structure IRQueryModel : Type where
  root_name : String
  root : Nat
  vertices : List (Nat × IRVertex)
  edges : List (Nat × IREdge)
  component_outputs : List (String × ContextField)
  outputs : List (String × TFOutput)
deriving DecidableEq, Repr

/-- The `IndexedQuery` handed to the interpreter (the fields this crate's
claims are about; after conversion the code overwrites its `outputs` map
with the compiler's own output map). -/
structure IndexedQueryModel : Type where
  root : Nat
  vertices : List (Nat × IRVertex)
  edges : List (Nat × IREdge)
  outputs : List (String × TFOutput)
deriving DecidableEq, Repr

/-- `NonZeroUsize::new`, the partial constructor behind every `Vid::new` and
`Eid::new` the id makers perform (`.unwrap()` in the source). -/
def nonzero_usize_new (n : Nat) : Option Nat :=
  if n = 0 then none else some n

/-- Modelled from the spec: the structural validation performed by the
external engine's `IRQuery -> IndexedQuery` conversion (the `try_into` whose
`unwrap` is the compiler's last partial step; the engine itself is outside
this repository).  Following the section 3 invariants of the IRQuery data
model it checks that the id-keyed maps have unique keys and that every
record carries its own key, that the root vertex exists, that every edge
connects existing vertices, and that every output binding is anchored at an
existing vertex. -/
def ir_valid (q : IRQueryModel) : Bool :=
  decide (alKeys q.vertices).Nodup &&
  decide (alKeys q.edges).Nodup &&
  q.vertices.all (fun kv => kv.2.vid == kv.1) &&
  (alKeys q.vertices).contains q.root &&
  q.edges.all (fun kv =>
    kv.2.eid == kv.1 &&
    (alKeys q.vertices).contains kv.2.from_vid &&
    (alKeys q.vertices).contains kv.2.to_vid) &&
  q.component_outputs.all (fun kv => (alKeys q.vertices).contains kv.2.vertex_id) &&
  q.outputs.all (fun kv => (alKeys q.vertices).contains kv.2.vid)

/-- The assembly performed by `Query::iquery_and_arguments`: both id makers
count up from 1; the synthetic root vertex takes the first vertex id (1) and
has no edge; the document is compiled with the root as parent; the outputs
map is also rendered as the component's `ContextField` map. -/
def iquery_assemble (doc : KdlDocument) : IRQueryModel :=
  let starting_vid := 1
  let r := construct_edges doc starting_vid 2 1
  let vertices :=
    alExtend (alInsert [] starting_vid ⟨starting_vid, "node", none, []⟩) r.vertices
  let edges := alExtend [] r.edges
  { root_name := "Document"
    root := starting_vid
    vertices := vertices
    edges := edges
    component_outputs :=
      r.outputs.map (fun kv => (kv.1, ⟨kv.2.vid, kv.2.name, kv.2.value_type⟩))
    outputs := r.outputs }

/-- `ir_query.try_into()`: succeeds exactly when the assembled query passes
the structural validation; the code then replaces the indexed query's
outputs with the compiler's own output map (`query.outputs = o`). -/
def try_into_indexed (q : IRQueryModel) : Option IndexedQueryModel :=
  if ir_valid q then some ⟨q.root, q.vertices, q.edges, q.outputs⟩ else none

/-- `Query::iquery_and_arguments`, with the `try_into().unwrap()` partiality
made explicit; the returned argument map is always empty. -/
def iquery_and_arguments (doc : KdlDocument) :
    Option (IndexedQueryModel × List (String × String)) :=
  (try_into_indexed (iquery_assemble doc)).map (fun q => (q, []))

/-! ### The parsed YAML document (serde_yaml 0.9)

`serde_yaml::Value` is a closed union over seven kinds.  A mapping keeps its
entries in insertion order with pairwise distinct keys (serde_yaml rejects
duplicate keys while parsing); the numeric payload of a number is never
inspected by this crate, only its kind matters.  serde_yaml's accessors
(`as_str`, `as_sequence`, `is_sequence`) and its string `Index`
implementation behind `Value::get` first strip `!Tag` wrappers through
`Value::untag_ref`. -/

inductive YamlValue : Type where
  | null : YamlValue
  | bool : Bool → YamlValue
  | number : Int → YamlValue
  | string : String → YamlValue
  | sequence : List YamlValue → YamlValue
  | mapping : List (YamlValue × YamlValue) → YamlValue
  | tagged : String → YamlValue → YamlValue

/-- `serde_yaml::Value::untag_ref`: strip every layer of `!Tag` wrapping. -/
def untag_ref : YamlValue → YamlValue
  | .tagged _ v => untag_ref v
  | v => v

mutual
/-- Equality of YAML values (`Value: PartialEq`), used for mapping keys. -/
def yeq : YamlValue → YamlValue → Bool
  | .null, .null => true
  | .bool a, .bool b => a == b
  | .number a, .number b => a == b
  | .string a, .string b => a == b
  | .sequence a, .sequence b => yeq_list a b
  | .mapping a, .mapping b => yeq_entries a b
  | .tagged ta va, .tagged tb vb => ta == tb && yeq va vb
  | _, _ => false
def yeq_list : List YamlValue → List YamlValue → Bool
  | [], [] => true
  | a :: as', b :: bs' => yeq a b && yeq_list as' bs'
  | _, _ => false
def yeq_entries : List (YamlValue × YamlValue) → List (YamlValue × YamlValue) → Bool
  | [], [] => true
  | a :: as', b :: bs' => yeq a.1 b.1 && yeq a.2 b.2 && yeq_entries as' bs'
  | _, _ => false
end

/-- `serde_yaml::Mapping::get`: the value stored under an equal key. -/
def mapping_get : List (YamlValue × YamlValue) → YamlValue → Option YamlValue
  | [], _ => none
  | kv :: rest, k => if yeq kv.1 k then some kv.2 else mapping_get rest k

/-- `serde_yaml::Value::get` with a string index: after stripping tags, a
mapping is looked up under the string key; every other kind has no entry. -/
def yaml_get (v : YamlValue) (key : String) : Option YamlValue :=
  match untag_ref v with
  | .mapping m => mapping_get m (.string key)
  | _ => none

/-- `serde_yaml::Value::as_str`. -/
def as_str (v : YamlValue) : Option String :=
  match untag_ref v with
  | .string s => some s
  | _ => none

/-- `serde_yaml::Value::as_sequence`. -/
def as_sequence (v : YamlValue) : Option (List YamlValue) :=
  match untag_ref v with
  | .sequence xs => some xs
  | _ => none

/-- `serde_yaml::Value::is_sequence`. -/
def is_sequence (v : YamlValue) : Bool := (as_sequence v).isSome

/-- The adapter's `Typename` implementation (src/lib.rs lines 28-40): the
seven kinds, matched directly on the stored value without untagging. -/
def typename : YamlValue → String
  | .null => "null"
  | .bool _ => "bool"
  | .number _ => "number"
  | .string _ => "string"
  | .sequence _ => "sequence"
  | .mapping _ => "mapping"
  | .tagged _ _ => "tagged"

/-! ### The adapter capabilities (src/lib.rs lines 46-117)

A traversal context is modelled by its active vertex, a YAML value (the
engine's context bookkeeping is outside this repository; `resolve_property`
and `resolve_neighbors` are `filter_map`s over the in-flight contexts, so
the per-context outcome is the whole behaviour). -/

/-- Per-context body of `YamlAdapter::resolve_property` (lines 57-74):
`node.0.get(&property_name).and_then(|v| v.as_str())`, the scalar being
yielded as a string `FieldValue`. -/
def resolve_property (node : YamlValue) (property_name : String) : Option String :=
  (yaml_get node property_name).bind as_str

/-- `resolve_property` over the whole context stream: contexts whose lookup
misses are dropped (`filter_map`). -/
def resolve_property_ctxs (contexts : List YamlValue) (property_name : String) :
    List (YamlValue × String) :=
  contexts.filterMap (fun ctx =>
    (resolve_property ctx property_name).map (fun v => (ctx, v)))

/-- Per-context body of `YamlAdapter::resolve_neighbors` (lines 76-107): a
`*` edge over a sequence fans out to every element in order; otherwise a
successful `get` yields exactly the one stored value; otherwise the context
is dropped.  (The `as_sequence().unwrap()` of the source is guarded by
`is_sequence`, rendered total here with `getD`.) -/
def resolve_neighbors (active : YamlValue) (edge_name : String) :
    Option (List YamlValue) :=
  if edge_name = "*" ∧ is_sequence active = true then
    some ((as_sequence active).getD [])
  else
    match yaml_get active edge_name with
    | some value => some [value]
    | none => none

/-- `resolve_neighbors` over the whole context stream (`filter_map`). -/
def resolve_neighbors_ctxs (contexts : List YamlValue) (edge_name : String) :
    List (YamlValue × List YamlValue) :=
  contexts.filterMap (fun ctx =>
    (resolve_neighbors ctx edge_name).map (fun ns => (ctx, ns)))

/-- The amended description of property resolution: a value is yielded
exactly when the active value, after stripping `!Tag` wrappers, is a mapping
containing the key and the value stored under the key, again after stripping
`!Tag` wrappers, is a string; that string is yielded unchanged; every
other stored kind, and a missing key, yields nothing — no coercion. -/
def resolve_property_spec (node : YamlValue) (property_name : String) :
    Option String :=
  match untag_ref node with
  | .mapping m =>
    match mapping_get m (.string property_name) with
    | some v =>
      match untag_ref v with
      | .string s => some s
      | _ => none
    | none => none
  | _ => none

/-- The amended description of neighbor resolution: when the active value,
after stripping `!Tag` wrappers, is a sequence, the `*` edge yields every
element in original order and any other edge yields nothing; when it is a
mapping, an edge whose name occurs as a string key (including the literal
key `*`) yields exactly that stored value; every other kind yields
nothing. -/
def resolve_neighbors_spec (active : YamlValue) (edge_name : String) :
    Option (List YamlValue) :=
  match untag_ref active with
  | .sequence xs => if edge_name = "*" then some xs else none
  | .mapping m =>
    match mapping_get m (.string edge_name) with
    | some v => some [v]
    | none => none
  | _ => none

/-- The amended description of the output-binding extractor: a leaf value is
recognized exactly when its rendered literal starts with the two characters
`"@`; the label is that literal with this lead removed and, when the
remainder ends with a quotation mark, that final quotation mark removed —
otherwise the raw literal itself survives as the label.  Nothing prevents
the resulting label from containing further sigil or quote characters. -/
def extract_label_spec (v : String) : Option String :=
  if v.take 2 = "\"@" then
    some (if (v.drop 2).takeRight 1 = "\"" then (v.drop 2).dropRight 1 else v)
  else none

/-- The extractor as the compiler combines it: the recognition test chooses
whether a binding is recorded, the label function names it. -/
def extract_label (v : String) : Option String :=
  if output_recognized v then some (output_label v) else none

/-! ### The execution facade `run` (src/lib.rs lines 261-284)

Both text parsers and the execution engine live outside this repository, so
`run` is modelled over their outcomes: the two parse results arrive as
`Except` values and the engine as a function from the indexed query, the
variable map and the document root to either an engine error or the list of
result rows.  The source `unwrap`s both parse results (a parse failure
panics) and propagates an engine error with `?`; row keys are re-rendered
from `Arc<str>` to `String`, the identity here. -/

def Row : Type := List (String × String)
deriving instance DecidableEq, Repr for Row

/-- Outcome of one `run` call: `panicked` for the `unwrap`s on the two parse
results (and the compiler's internal `unwrap`s), `failure` for the `Err`
value the call returns, `success` for the materialized row list. -/
inductive RunResult : Type where
  | panicked : RunResult
  | failure : String → RunResult
  | success : List Row → RunResult
deriving DecidableEq, Repr

/-- Whether a `run` outcome delivered rows. -/
def RunResult.succeeded : RunResult → Bool
  | .success _ => true
  | _ => false

/-- `run(raw_query, yaml)`: parse the query text (unwrap), parse the
document text (unwrap), compile, then interpret; an engine error is
returned whole, otherwise the lazily produced rows are collected. -/
def run (query_parse : Except String KdlDocument)
    (yaml_parse : Except String YamlValue)
    (interpret_ir :
      IndexedQueryModel → List (String × String) → YamlValue →
        Except String (List Row)) : RunResult :=
  match query_parse with
  | .error _ => .panicked
  | .ok kdl_doc =>
    match yaml_parse with
    | .error _ => .panicked
    | .ok root =>
      match iquery_and_arguments kdl_doc with
      | none => .panicked
      | some (query, vars) =>
        match interpret_ir query vars root with
        | .error e => .failure e
        | .ok rows => .success rows

/-! ## Association-list lemmas -/

theorem alExtend_nil {α β : Type} [DecidableEq α] (m : List (α × β)) :
    alExtend m [] = m := rfl

theorem alGet_insert_self {α β : Type} [DecidableEq α]
    (m : List (α × β)) (k : α) (v : β) :
    alGet (alInsert m k v) k = some v := by
  induction m with
  | nil => simp [alInsert, alGet]
  | cons kv rest ih =>
    by_cases h : kv.1 = k
    · simp [alInsert, h, alGet]
    · simp [alInsert, h, alGet, ih]

theorem alGet_insert_ne {α β : Type} [DecidableEq α]
    (m : List (α × β)) (k k' : α) (v : β) (h : k' ≠ k) :
    alGet (alInsert m k v) k' = alGet m k' := by
  induction m with
  | nil => simp [alInsert, alGet, Ne.symm h]
  | cons kv rest ih =>
    by_cases hk : kv.1 = k
    · simp [alInsert, alGet, hk, Ne.symm h]
    · simp [alInsert, alGet, hk, ih]

theorem alInsert_of_notMem {α β : Type} [DecidableEq α]
    (m : List (α × β)) (k : α) (v : β) (h : k ∉ alKeys m) :
    alInsert m k v = m ++ [(k, v)] := by
  induction m with
  | nil => simp [alInsert]
  | cons kv rest ih =>
    rw [show alKeys (kv :: rest) = kv.1 :: alKeys rest from rfl, List.mem_cons] at h
    push_neg at h
    simp [alInsert, Ne.symm h.1, ih h.2]

theorem mem_alInsert {α β : Type} [DecidableEq α]
    (m : List (α × β)) (k : α) (v : β) (x : α × β) (h : x ∈ alInsert m k v) :
    x ∈ m ∨ x = (k, v) := by
  induction m with
  | nil => simpa [alInsert] using h
  | cons kv rest ih =>
    by_cases hk : kv.1 = k
    · rw [show alInsert (kv :: rest) k v = (k, v) :: rest by simp [alInsert, hk]] at h
      rcases List.mem_cons.mp h with h | h
      · right; exact h
      · left; exact List.mem_cons_of_mem _ h
    · rw [show alInsert (kv :: rest) k v = kv :: alInsert rest k v by
        simp [alInsert, hk]] at h
      rcases List.mem_cons.mp h with h | h
      · left; exact h ▸ List.mem_cons_self _ _
      · rcases ih h with h' | h'
        · left; exact List.mem_cons_of_mem _ h'
        · right; exact h'

theorem alKeys_alInsert_sub {α β : Type} [DecidableEq α]
    (m : List (α × β)) (k : α) (v : β) :
    ∀ a ∈ alKeys (alInsert m k v), a ∈ alKeys m ∨ a = k := by
  intro a ha
  rw [alKeys, List.mem_map] at ha
  obtain ⟨x, hx, hxa⟩ := ha
  rcases mem_alInsert m k v x hx with h | h
  · left; rw [alKeys]; exact hxa ▸ List.mem_map_of_mem Prod.fst h
  · right; rw [← hxa, h]

theorem nodup_alKeys_alInsert {α β : Type} [DecidableEq α]
    (m : List (α × β)) (k : α) (v : β) (h : (alKeys m).Nodup) :
    (alKeys (alInsert m k v)).Nodup := by
  induction m with
  | nil => simp [alInsert, alKeys]
  | cons kv rest ih =>
    rw [show alKeys (kv :: rest) = kv.1 :: alKeys rest from rfl, List.nodup_cons] at h
    by_cases hk : kv.1 = k
    · subst hk
      rw [show alInsert (kv :: rest) kv.1 v = (kv.1, v) :: rest by simp [alInsert]]
      rw [show alKeys ((kv.1, v) :: rest) = kv.1 :: alKeys rest from rfl,
        List.nodup_cons]
      exact h
    · rw [show alInsert (kv :: rest) k v = kv :: alInsert rest k v by
        simp [alInsert, hk]]
      rw [show alKeys (kv :: alInsert rest k v) = kv.1 :: alKeys (alInsert rest k v)
        from rfl, List.nodup_cons]
      refine ⟨fun hc => ?_, ih h.2⟩
      rcases alKeys_alInsert_sub rest k v kv.1 hc with hc' | hc'
      · exact h.1 hc'
      · exact hk hc'

theorem nodup_alKeys_alExtend {α β : Type} [DecidableEq α]
    (m m2 : List (α × β)) (h : (alKeys m).Nodup) :
    (alKeys (alExtend m m2)).Nodup := by
  induction m2 generalizing m with
  | nil => simpa [alExtend] using h
  | cons kv rest ih =>
    show (alKeys (alExtend (alInsert m kv.1 kv.2) rest)).Nodup
    exact ih _ (nodup_alKeys_alInsert m kv.1 kv.2 h)

theorem alExtend_of_disjoint {α β : Type} [DecidableEq α]
    (m m2 : List (α × β)) (h1 : (alKeys m2).Nodup)
    (h2 : ∀ k ∈ alKeys m2, k ∉ alKeys m) :
    alExtend m m2 = m ++ m2 := by
  induction m2 generalizing m with
  | nil => simp [alExtend]
  | cons kv rest ih =>
    have hck : alKeys (kv :: rest) = kv.1 :: alKeys rest := rfl
    rw [hck, List.nodup_cons] at h1
    have hk : kv.1 ∉ alKeys m := h2 kv.1 (by rw [hck]; exact List.mem_cons_self _ _)
    show alExtend (alInsert m kv.1 kv.2) rest = m ++ kv :: rest
    rw [alInsert_of_notMem m kv.1 kv.2 hk]
    rw [ih (m ++ [(kv.1, kv.2)]) h1.2 ?_]
    · simp [List.append_assoc]
    · intro a ha
      have hnm : a ∉ alKeys m := h2 a (by rw [hck]; exact List.mem_cons_of_mem _ ha)
      have hne : a ≠ kv.1 := fun hh => h1.1 (hh ▸ ha)
      intro hc
      rw [show alKeys (m ++ [(kv.1, kv.2)]) = alKeys m ++ [kv.1] by
        simp [alKeys]] at hc
      rcases List.mem_append.mp hc with hc | hc
      · exact hnm hc
      · exact hne (List.mem_singleton.mp hc)

theorem alGet_eq_none_of_notMem {α β : Type} [DecidableEq α]
    (m : List (α × β)) (k : α) (h : k ∉ alKeys m) :
    alGet m k = none := by
  induction m with
  | nil => rfl
  | cons kv rest ih =>
    rw [show alKeys (kv :: rest) = kv.1 :: alKeys rest from rfl, List.mem_cons] at h
    push_neg at h
    simp [alGet, Ne.symm h.1, ih h.2]

theorem alGet_extend {α β : Type} [DecidableEq α]
    (m m2 : List (α × β)) (k : α) (h : (alKeys m2).Nodup) :
    alGet (alExtend m m2) k =
      match alGet m2 k with
      | some v => some v
      | none => alGet m k := by
  induction m2 generalizing m with
  | nil => simp [alExtend, alGet]
  | cons kv rest ih =>
    rw [show alKeys (kv :: rest) = kv.1 :: alKeys rest from rfl,
      List.nodup_cons] at h
    show alGet (alExtend (alInsert m kv.1 kv.2) rest) k = _
    rw [ih _ h.2]
    by_cases hk : kv.1 = k
    · subst hk
      rw [alGet_eq_none_of_notMem rest kv.1 h.1]
      simp [alGet, alGet_insert_self]
    · simp [alGet, hk, alGet_insert_ne m kv.1 k kv.2 (fun hh => hk hh.symm)]

theorem mem_alKeys_of_alGet {α β : Type} [DecidableEq α]
    (m : List (α × β)) (k : α) (v : β) (h : alGet m k = some v) :
    k ∈ alKeys m := by
  by_contra hc
  rw [alGet_eq_none_of_notMem m k hc] at h
  exact Option.noConfusion h

theorem lookup_last_append {α β : Type} [DecidableEq α]
    (l1 l2 : List (α × β)) (k : α) :
    lookup_last (l1 ++ l2) k =
      match lookup_last l2 k with
      | some v => some v
      | none => lookup_last l1 k := by
  induction l1 with
  | nil =>
    cases h : lookup_last l2 k <;> simp [lookup_last, h]
  | cons kv rest ih =>
    show lookup_last (kv :: (rest ++ l2)) k = _
    cases h : lookup_last l2 k with
    | some v => simp only [lookup_last, ih, h]
    | none => simp only [lookup_last, ih, h]

theorem mem_alExtend {α β : Type} [DecidableEq α]
    (A B : List (α × β)) (x : α × β) (h : x ∈ alExtend A B) : x ∈ A ∨ x ∈ B := by
  induction B generalizing A with
  | nil => left; simpa [alExtend] using h
  | cons kv rest ih =>
    have h' : x ∈ alExtend (alInsert A kv.1 kv.2) rest := h
    rcases ih (alInsert A kv.1 kv.2) h' with h'' | h''
    · rcases mem_alInsert A kv.1 kv.2 x h'' with h3 | h3
      · left; exact h3
      · right; rw [h3]; exact List.mem_cons_self _ _
    · right; exact List.mem_cons_of_mem _ h''

/-! ## The structural bookkeeping of the compiler -/

mutual
theorem ce_shape_doc (d : KdlDocument) (p vn en : Nat) :
    CEShape (construct_edges d p vn en) p vn en (doc_count d) := by
  cases d with
  | nil => simp [CEShape, construct_edges, doc_count, alKeys]
  | cons node rest =>
    have h1 := ce_shape_node node p vn en
    obtain ⟨h1v, h1e, h1kv, h1ke, h1tv, h1vx, h1ed, h1out, h1nd⟩ := h1
    have h2 := ce_shape_doc rest p
      (construct_node node p vn en).vidNext (construct_node node p vn en).eidNext
    rw [h1v, h1e] at h2
    obtain ⟨h2v, h2e, h2kv, h2ke, h2tv, h2vx, h2ed, h2out, h2nd⟩ := h2
    have hcnt : doc_count (.cons node rest) = node_count node + doc_count rest := by
      simp [doc_count]
    have hdv : alExtend (construct_node node p vn en).vertices
        (construct_edges rest p (vn + node_count node) (en + node_count node)).vertices =
        (construct_node node p vn en).vertices ++
        (construct_edges rest p (vn + node_count node) (en + node_count node)).vertices := by
      refine alExtend_of_disjoint _ _ (by rw [h2kv]; exact List.nodup_range' _ _) ?_
      rw [h2kv, h1kv]
      intro a ha hb
      rw [List.mem_range'_1] at ha hb
      omega
    have hde : alExtend (construct_node node p vn en).edges
        (construct_edges rest p (vn + node_count node) (en + node_count node)).edges =
        (construct_node node p vn en).edges ++
        (construct_edges rest p (vn + node_count node) (en + node_count node)).edges := by
      refine alExtend_of_disjoint _ _ (by rw [h2ke]; exact List.nodup_range' _ _) ?_
      rw [h2ke, h1ke]
      intro a ha hb
      rw [List.mem_range'_1] at ha hb
      omega
    simp only [construct_edges, h1v, h1e]
    refine ⟨?_, ?_, ?_, ?_, ?_, ?_, ?_, ?_, ?_⟩
    · rw [hcnt]; simp only [h2v]; omega
    · rw [hcnt]; simp only [h2e]; omega
    · rw [hcnt, hdv]
      rw [show alKeys ((construct_node node p vn en).vertices ++
        (construct_edges rest p (vn + node_count node) (en + node_count node)).vertices) =
        alKeys (construct_node node p vn en).vertices ++
        alKeys (construct_edges rest p (vn + node_count node)
          (en + node_count node)).vertices by simp [alKeys]]
      rw [h1kv, h2kv, List.range'_append_1]
      congr 1
      omega
    · rw [hcnt, hde]
      rw [show alKeys ((construct_node node p vn en).edges ++
        (construct_edges rest p (vn + node_count node) (en + node_count node)).edges) =
        alKeys (construct_node node p vn en).edges ++
        alKeys (construct_edges rest p (vn + node_count node)
          (en + node_count node)).edges by simp [alKeys]]
      rw [h1ke, h2ke, List.range'_append_1]
      congr 1
      omega
    · rw [hcnt, hde, List.map_append, h1tv, h2tv, List.range'_append_1]
      congr 1
      omega
    · intro kv hkv
      rw [hdv] at hkv
      rcases List.mem_append.mp hkv with h | h
      · exact h1vx kv h
      · exact h2vx kv h
    · intro kv hkv
      rw [hde] at hkv
      rw [hcnt]
      rcases List.mem_append.mp hkv with h | h
      · obtain ⟨he, hf⟩ := h1ed kv h
        refine ⟨he, ?_⟩
        rcases hf with hf | hf
        · exact Or.inl hf
        · exact Or.inr ⟨hf.1, by omega⟩
      · obtain ⟨he, hf⟩ := h2ed kv h
        refine ⟨he, ?_⟩
        rcases hf with hf | hf
        · exact Or.inl hf
        · exact Or.inr ⟨by omega, by omega⟩
    · intro kv hkv
      rw [hcnt]
      rcases mem_alExtend _ _ kv hkv with h | h
      · rcases h1out kv h with hf | hf
        · exact Or.inl hf
        · exact Or.inr ⟨hf.1, by omega⟩
      · rcases h2out kv h with hf | hf
        · exact Or.inl hf
        · exact Or.inr ⟨by omega, by omega⟩
    · exact nodup_alKeys_alExtend _ _ h1nd
theorem ce_shape_node (n : KdlNode) (p vn en : Nat) :
    CEShape (construct_node n p vn en) p vn en (node_count n) := by
  cases n with
  | mk name entries children =>
    have hch := ce_shape_children children vn (vn + 1) (en + 1)
    obtain ⟨hv, he, hkv, hke, htv, hvx, hed, hout, hnd⟩ := hch
    have hcnt : node_count (.mk name entries children) = 1 + children_count children := by
      simp [node_count]
    have hdv : alExtend [(vn, (⟨vn, "node", none, []⟩ : IRVertex))]
        (construct_children children vn (vn + 1) (en + 1)).vertices =
        [(vn, (⟨vn, "node", none, []⟩ : IRVertex))] ++
        (construct_children children vn (vn + 1) (en + 1)).vertices := by
      refine alExtend_of_disjoint _ _ (by rw [hkv]; exact List.nodup_range' _ _) ?_
      rw [hkv]
      intro a ha hb
      rw [List.mem_range'_1] at ha
      rw [show alKeys [(vn, (⟨vn, "node", none, []⟩ : IRVertex))] = [vn] from rfl,
        List.mem_singleton] at hb
      omega
    have hde : alExtend [(en, (⟨en, p, vn, name, [], false, none⟩ : IREdge))]
        (construct_children children vn (vn + 1) (en + 1)).edges =
        [(en, (⟨en, p, vn, name, [], false, none⟩ : IREdge))] ++
        (construct_children children vn (vn + 1) (en + 1)).edges := by
      refine alExtend_of_disjoint _ _ (by rw [hke]; exact List.nodup_range' _ _) ?_
      rw [hke]
      intro a ha hb
      rw [List.mem_range'_1] at ha
      rw [show alKeys [(en, (⟨en, p, vn, name, [], false, none⟩ : IREdge))] = [en]
        from rfl, List.mem_singleton] at hb
      omega
    simp only [construct_node]
    refine ⟨?_, ?_, ?_, ?_, ?_, ?_, ?_, ?_, ?_⟩
    · rw [hcnt]; simp only [hv]; omega
    · rw [hcnt]; simp only [he]; omega
    · show alKeys (alExtend (alInsert [] vn ⟨vn, "node", none, []⟩)
        (construct_children children vn (vn + 1) (en + 1)).vertices) = _
      rw [show alInsert ([] : List (Nat × IRVertex)) vn ⟨vn, "node", none, []⟩ =
        [(vn, (⟨vn, "node", none, []⟩ : IRVertex))] from rfl, hdv]
      rw [show alKeys ([(vn, (⟨vn, "node", none, []⟩ : IRVertex))] ++
        (construct_children children vn (vn + 1) (en + 1)).vertices) =
        vn :: alKeys (construct_children children vn (vn + 1) (en + 1)).vertices
        from rfl]
      rw [hkv, hcnt, Nat.add_comm 1 (children_count children), List.range'_succ]
    · show alKeys (alExtend (alInsert [] en ⟨en, p, vn, name, [], false, none⟩)
        (construct_children children vn (vn + 1) (en + 1)).edges) = _
      rw [show alInsert ([] : List (Nat × IREdge)) en ⟨en, p, vn, name, [], false, none⟩ =
        [(en, (⟨en, p, vn, name, [], false, none⟩ : IREdge))] from rfl, hde]
      rw [show alKeys ([(en, (⟨en, p, vn, name, [], false, none⟩ : IREdge))] ++
        (construct_children children vn (vn + 1) (en + 1)).edges) =
        en :: alKeys (construct_children children vn (vn + 1) (en + 1)).edges
        from rfl]
      rw [hke, hcnt, Nat.add_comm 1 (children_count children), List.range'_succ]
    · show List.map (fun kv => kv.2.to_vid)
        (alExtend (alInsert [] en ⟨en, p, vn, name, [], false, none⟩)
          (construct_children children vn (vn + 1) (en + 1)).edges) = _
      rw [show alInsert ([] : List (Nat × IREdge)) en ⟨en, p, vn, name, [], false, none⟩ =
        [(en, (⟨en, p, vn, name, [], false, none⟩ : IREdge))] from rfl, hde]
      rw [show List.map (fun kv => kv.2.to_vid)
        ([(en, (⟨en, p, vn, name, [], false, none⟩ : IREdge))] ++
          (construct_children children vn (vn + 1) (en + 1)).edges) =
        vn :: List.map (fun kv => kv.2.to_vid)
          (construct_children children vn (vn + 1) (en + 1)).edges from rfl]
      rw [htv, hcnt, Nat.add_comm 1 (children_count children), List.range'_succ]
    · intro kv hkv
      rw [show alInsert ([] : List (Nat × IRVertex)) vn ⟨vn, "node", none, []⟩ =
        [(vn, (⟨vn, "node", none, []⟩ : IRVertex))] from rfl, hdv] at hkv
      rcases List.mem_append.mp hkv with h | h
      · rw [List.mem_singleton] at h
        rw [h]
      · exact hvx kv h
    · intro kv hkv
      rw [hcnt]
      rw [show alInsert ([] : List (Nat × IREdge)) en ⟨en, p, vn, name, [], false, none⟩ =
        [(en, (⟨en, p, vn, name, [], false, none⟩ : IREdge))] from rfl, hde] at hkv
      rcases List.mem_append.mp hkv with h | h
      · rw [List.mem_singleton] at h
        rw [h]
        exact ⟨rfl, Or.inl rfl⟩
      · obtain ⟨he', hf⟩ := hed kv h
        refine ⟨he', ?_⟩
        rcases hf with hf | hf
        · exact Or.inr ⟨by omega, by omega⟩
        · exact Or.inr ⟨by omega, by omega⟩
    · intro kv hkv
      rw [hcnt]
      rcases mem_alExtend _ _ kv hkv with h | h
      · cases entries with
        | nil => cases h
        | cons v vs =>
          by_cases hr : output_recognized v = true
          · rw [show (match (v :: vs).head? with
              | some v =>
                if output_recognized v then
                  alInsert [] (output_label v)
                    (⟨name, "String", p⟩ : TFOutput)
                else []
              | none => ([] : List (String × TFOutput))) =
              [(output_label v, (⟨name, "String", p⟩ : TFOutput))] by
              simp [hr, alInsert]] at h
            rw [List.mem_singleton] at h
            rw [h]
            exact Or.inl rfl
          · rw [show (match (v :: vs).head? with
              | some v =>
                if output_recognized v then
                  alInsert [] (output_label v)
                    (⟨name, "String", p⟩ : TFOutput)
                else []
              | none => ([] : List (String × TFOutput))) =
              ([] : List (String × TFOutput)) by simp [hr]] at h
            cases h
      · rcases hout kv h with hf | hf
        · exact Or.inr ⟨by omega, by omega⟩
        · exact Or.inr ⟨by omega, by omega⟩
    · refine nodup_alKeys_alExtend _ _ ?_
      cases entries with
      | nil => simp [alKeys]
      | cons v vs =>
        by_cases hr : output_recognized v = true <;>
          simp [hr, alInsert, alKeys]
theorem ce_shape_children (c : OptChildren) (p vn en : Nat) :
    CEShape (construct_children c p vn en) p vn en (children_count c) := by
  cases c with
  | none => simp [CEShape, construct_children, children_count, alKeys]
  | some d =>
    have h := ce_shape_doc d p vn en
    simpa [construct_children, children_count] using h
end

/-! ## The document-order emission list -/

mutual
theorem bindings_count_doc (d : KdlDocument) (p vn : Nat) :
    (bindings_doc d p vn).2 = vn + doc_count d := by
  cases d with
  | nil => simp [bindings_doc, doc_count]
  | cons node rest =>
    have h1 := bindings_count_node node p vn
    have h2 := bindings_count_doc rest p (bindings_node node p vn).2
    simp only [bindings_doc]
    rw [h2, h1]
    simp only [doc_count]
    omega
theorem bindings_count_node (n : KdlNode) (p vn : Nat) :
    (bindings_node n p vn).2 = vn + node_count n := by
  cases n with
  | mk name entries children =>
    have h := bindings_count_children children vn (vn + 1)
    simp only [bindings_node]
    rw [h]
    simp only [node_count]
    omega
theorem bindings_count_children (c : OptChildren) (p vn : Nat) :
    (bindings_children c p vn).2 = vn + children_count c := by
  cases c with
  | none => simp [bindings_children, children_count]
  | some d => simpa [bindings_children, children_count] using bindings_count_doc d p vn
end

mutual
theorem ce_outputs_doc (d : KdlDocument) (p vn en : Nat) (k : String) :
    alGet (construct_edges d p vn en).outputs k =
      lookup_last (bindings_doc d p vn).1 k := by
  cases d with
  | nil => simp [construct_edges, bindings_doc, alGet, lookup_last]
  | cons node rest =>
    obtain ⟨s1v, s1e, -, -, -, -, -, -, -⟩ := ce_shape_node node p vn en
    obtain ⟨-, -, -, -, -, -, -, -, hnd⟩ := ce_shape_doc rest p
      (construct_node node p vn en).vidNext (construct_node node p vn en).eidNext
    have ihn := ce_outputs_node node p vn en k
    have ihd := ce_outputs_doc rest p
      (construct_node node p vn en).vidNext (construct_node node p vn en).eidNext k
    have hbc : (bindings_node node p vn).2 = vn + node_count node :=
      bindings_count_node node p vn
    simp only [construct_edges, bindings_doc]
    rw [alGet_extend _ _ k hnd, lookup_last_append, ihn, ihd, hbc, s1v]
theorem ce_outputs_node (n : KdlNode) (p vn en : Nat) (k : String) :
    alGet (construct_node n p vn en).outputs k =
      lookup_last (bindings_node n p vn).1 k := by
  cases n with
  | mk name entries children =>
    obtain ⟨-, -, -, -, -, -, -, -, hnd⟩ :=
      ce_shape_children children vn (vn + 1) (en + 1)
    have ih := ce_outputs_children children vn (vn + 1) (en + 1) k
    cases entries with
    | nil =>
      simp only [construct_node, bindings_node, List.head?_nil]
      rw [alGet_extend _ _ k hnd, lookup_last_append, ih]
      cases h : lookup_last (bindings_children children vn (vn + 1)).1 k <;>
        simp [h, alGet, lookup_last]
    | cons v vs =>
      by_cases hr : output_recognized v = true
      · simp only [construct_node, bindings_node, List.head?_cons, hr, if_true]
        rw [alGet_extend _ _ k hnd, lookup_last_append, ih]
        cases h : lookup_last (bindings_children children vn (vn + 1)).1 k <;>
          simp [h, alGet, lookup_last, alInsert]
      · simp only [construct_node, bindings_node, List.head?_cons, hr, if_false]
        rw [alGet_extend _ _ k hnd, lookup_last_append, ih]
        cases h : lookup_last (bindings_children children vn (vn + 1)).1 k <;>
          simp [h, alGet, lookup_last]
theorem ce_outputs_children (c : OptChildren) (p vn en : Nat) (k : String) :
    alGet (construct_children c p vn en).outputs k =
      lookup_last (bindings_children c p vn).1 k := by
  cases c with
  | none => simp [construct_children, bindings_children, alGet, lookup_last]
  | some d =>
    simpa [construct_children, bindings_children] using ce_outputs_doc d p vn en k
end

/-! ## Each recorded binding is anchored at the source of its node's edge -/

mutual
theorem ce_bind_doc (d : KdlDocument) (p vn en : Nat) (hp : p < vn) :
    ∀ kv ∈ (construct_edges d p vn en).outputs,
      ∃ i e, alGet (construct_edges d p vn en).edges i = some e ∧
        e.edge_name = kv.2.name ∧ e.from_vid = kv.2.vid ∧ e.to_vid ≠ kv.2.vid := by
  cases d with
  | nil =>
    intro kv h
    simp [construct_edges] at h
  | cons node rest =>
    obtain ⟨s1v, s1e, -, s1ke, -, -, -, -, -⟩ := ce_shape_node node p vn en
    obtain ⟨-, -, -, s2ke, -, -, -, -, -⟩ := ce_shape_doc rest p
      (construct_node node p vn en).vidNext (construct_node node p vn en).eidNext
    intro kv hkv
    simp only [construct_edges] at hkv ⊢
    rcases mem_alExtend _ _ kv hkv with h | h
    · obtain ⟨i, e, hget, hname, hfrom, hto⟩ := ce_bind_node node p vn en hp kv h
      refine ⟨i, e, ?_, hname, hfrom, hto⟩
      rw [alGet_extend _ _ i (by rw [s2ke]; exact List.nodup_range' _ _)]
      have hi : i ∈ alKeys (construct_node node p vn en).edges :=
        mem_alKeys_of_alGet _ _ _ hget
      rw [s1ke, List.mem_range'_1] at hi
      have hnone : alGet (construct_edges rest p
          (construct_node node p vn en).vidNext
          (construct_node node p vn en).eidNext).edges i = none := by
        apply alGet_eq_none_of_notMem
        rw [s2ke, List.mem_range'_1, s1e]
        omega
      rw [hnone, hget]
    · have hp2 : p < (construct_node node p vn en).vidNext := by rw [s1v]; omega
      obtain ⟨i, e, hget, hname, hfrom, hto⟩ :=
        ce_bind_doc rest p
          (construct_node node p vn en).vidNext
          (construct_node node p vn en).eidNext hp2 kv h
      refine ⟨i, e, ?_, hname, hfrom, hto⟩
      rw [alGet_extend _ _ i (by rw [s2ke]; exact List.nodup_range' _ _), hget]
theorem ce_bind_node (n : KdlNode) (p vn en : Nat) (hp : p < vn) :
    ∀ kv ∈ (construct_node n p vn en).outputs,
      ∃ i e, alGet (construct_node n p vn en).edges i = some e ∧
        e.edge_name = kv.2.name ∧ e.from_vid = kv.2.vid ∧ e.to_vid ≠ kv.2.vid := by
  cases n with
  | mk name entries children =>
    obtain ⟨-, -, -, ske, -, -, -, -, -⟩ :=
      ce_shape_children children vn (vn + 1) (en + 1)
    intro kv hkv
    simp only [construct_node] at hkv ⊢
    rcases mem_alExtend _ _ kv hkv with h | h
    · cases entries with
      | nil => simp at h
      | cons v vs =>
        by_cases hr : output_recognized v = true
        · have h' : kv = (output_label v, (⟨name, "String", p⟩ : TFOutput)) := by
            simpa [hr, alInsert] using h
          refine ⟨en, ⟨en, p, vn, name, [], false, none⟩, ?_, ?_, ?_, ?_⟩
          · rw [alGet_extend _ _ en (by rw [ske]; exact List.nodup_range' _ _)]
            have hnone : alGet
                (construct_children children vn (vn + 1) (en + 1)).edges en = none := by
              apply alGet_eq_none_of_notMem
              rw [ske, List.mem_range'_1]
              omega
            rw [hnone]
            simp [alInsert, alGet]
          · rw [h']
          · rw [h']
          · rw [h']
            show vn ≠ p
            omega
        · simp [hr] at h
    · obtain ⟨i, e, hget, hname, hfrom, hto⟩ :=
        ce_bind_children children vn (vn + 1) (en + 1) (by omega) kv h
      refine ⟨i, e, ?_, hname, hfrom, hto⟩
      rw [alGet_extend _ _ i (by rw [ske]; exact List.nodup_range' _ _), hget]
theorem ce_bind_children (c : OptChildren) (p vn en : Nat) (hp : p < vn) :
    ∀ kv ∈ (construct_children c p vn en).outputs,
      ∃ i e, alGet (construct_children c p vn en).edges i = some e ∧
        e.edge_name = kv.2.name ∧ e.from_vid = kv.2.vid ∧ e.to_vid ≠ kv.2.vid := by
  cases c with
  | none =>
    intro kv h
    simp [construct_children] at h
  | some d =>
    intro kv h
    exact ce_bind_doc d p vn en hp kv h
end

/-! ## Shape of the assembled query -/

theorem alExtend_nil_left {α β : Type} [DecidableEq α]
    (B : List (α × β)) (h : (alKeys B).Nodup) : alExtend [] B = B := by
  have hd := alExtend_of_disjoint ([] : List (α × β)) B h
    (fun k _ hk => by simp [alKeys] at hk)
  simpa using hd

theorem assemble_parts (doc : KdlDocument) :
    (iquery_assemble doc).vertices =
      (1, (⟨1, "node", none, []⟩ : IRVertex)) :: (construct_edges doc 1 2 1).vertices ∧
    (iquery_assemble doc).edges = (construct_edges doc 1 2 1).edges ∧
    (iquery_assemble doc).outputs = (construct_edges doc 1 2 1).outputs ∧
    (iquery_assemble doc).root = 1 := by
  obtain ⟨-, -, hkv, hke, -, -, -, -, -⟩ := ce_shape_doc doc 1 2 1
  have hdv : alExtend [(1, (⟨1, "node", none, []⟩ : IRVertex))]
      (construct_edges doc 1 2 1).vertices =
      [(1, (⟨1, "node", none, []⟩ : IRVertex))] ++ (construct_edges doc 1 2 1).vertices := by
    refine alExtend_of_disjoint _ _ (by rw [hkv]; exact List.nodup_range' _ _) ?_
    rw [hkv]
    intro a ha hb
    rw [List.mem_range'_1] at ha
    rw [show alKeys [(1, (⟨1, "node", none, []⟩ : IRVertex))] = [1] from rfl,
      List.mem_singleton] at hb
    omega
  refine ⟨?_, ?_, rfl, rfl⟩
  · show alExtend (alInsert [] 1 ⟨1, "node", none, []⟩)
      (construct_edges doc 1 2 1).vertices = _
    rw [show alInsert ([] : List (Nat × IRVertex)) 1 ⟨1, "node", none, []⟩ =
      [(1, (⟨1, "node", none, []⟩ : IRVertex))] from rfl, hdv]
    rfl
  · show alExtend [] (construct_edges doc 1 2 1).edges = _
    exact alExtend_nil_left _ (by rw [hke]; exact List.nodup_range' _ _)

theorem assemble_vertex_keys (doc : KdlDocument) :
    alKeys (iquery_assemble doc).vertices = List.range' 1 (doc_count doc + 1) := by
  obtain ⟨hv, -, -, -⟩ := assemble_parts doc
  obtain ⟨-, -, hkv, -, -, -, -, -, -⟩ := ce_shape_doc doc 1 2 1
  rw [hv]
  rw [show alKeys ((1, (⟨1, "node", none, []⟩ : IRVertex)) ::
    (construct_edges doc 1 2 1).vertices) =
    1 :: alKeys (construct_edges doc 1 2 1).vertices from rfl, hkv]
  rw [List.range'_succ]

theorem assemble_edge_keys (doc : KdlDocument) :
    alKeys (iquery_assemble doc).edges = List.range' 1 (doc_count doc) := by
  obtain ⟨-, he, -, -⟩ := assemble_parts doc
  obtain ⟨-, -, -, hke, -, -, -, -, -⟩ := ce_shape_doc doc 1 2 1
  rw [he, hke]

theorem assemble_to_vids (doc : KdlDocument) :
    (iquery_assemble doc).edges.map (fun kv => kv.2.to_vid) =
      List.range' 2 (doc_count doc) := by
  obtain ⟨-, he, -, -⟩ := assemble_parts doc
  obtain ⟨-, -, -, -, htv, -, -, -, -⟩ := ce_shape_doc doc 1 2 1
  rw [he, htv]

theorem ir_valid_assemble (doc : KdlDocument) :
    ir_valid (iquery_assemble doc) = true := by
  obtain ⟨hv, he, ho, hroot⟩ := assemble_parts doc
  obtain ⟨-, -, -, -, htv, hvx, hed, hout, -⟩ := ce_shape_doc doc 1 2 1
  have hverts := assemble_vertex_keys doc
  have hedges := assemble_edge_keys doc
  have hmemv : ∀ x : Nat, 1 ≤ x → x < 2 + doc_count doc →
      x ∈ alKeys (iquery_assemble doc).vertices := by
    intro x h1 h2
    rw [hverts, List.mem_range'_1]
    omega
  have c1 : decide (alKeys (iquery_assemble doc).vertices).Nodup = true := by
    rw [decide_eq_true_eq, hverts]
    exact List.nodup_range' _ _
  have c2 : decide (alKeys (iquery_assemble doc).edges).Nodup = true := by
    rw [decide_eq_true_eq, hedges]
    exact List.nodup_range' _ _
  have c3 : (iquery_assemble doc).vertices.all (fun kv => kv.2.vid == kv.1) = true := by
    rw [List.all_eq_true]
    intro kv hkv
    rw [hv] at hkv
    rcases List.mem_cons.mp hkv with h | h
    · rw [h]
      simp
    · rw [hvx kv h]
      simp
  have c4 : ((alKeys (iquery_assemble doc).vertices).contains
      (iquery_assemble doc).root) = true := by
    rw [hroot, List.contains, List.elem_eq_mem, decide_eq_true_eq]
    exact hmemv 1 (by omega) (by omega)
  have c5 : (iquery_assemble doc).edges.all (fun kv =>
      kv.2.eid == kv.1 &&
      (alKeys (iquery_assemble doc).vertices).contains kv.2.from_vid &&
      (alKeys (iquery_assemble doc).vertices).contains kv.2.to_vid) = true := by
    rw [List.all_eq_true]
    intro kv hkv
    rw [he] at hkv
    obtain ⟨heid, hfrom⟩ := hed kv hkv
    have hto : kv.2.to_vid ∈ List.range' 2 (doc_count doc) := by
      rw [← htv]
      exact List.mem_map_of_mem (fun kv => kv.2.to_vid) hkv
    rw [List.mem_range'_1] at hto
    simp only [Bool.and_eq_true, beq_iff_eq, List.contains, List.elem_eq_mem,
      decide_eq_true_eq]
    refine ⟨⟨heid, ?_⟩, ?_⟩
    · rcases hfrom with h | h
      · exact hmemv kv.2.from_vid (by omega) (by omega)
      · exact hmemv kv.2.from_vid (by omega) (by omega)
    · exact hmemv kv.2.to_vid (by omega) (by omega)
  have hco : (iquery_assemble doc).component_outputs =
      (construct_edges doc 1 2 1).outputs.map
        (fun kv => (kv.1, ⟨kv.2.vid, kv.2.name, kv.2.value_type⟩)) := rfl
  have c6 : (iquery_assemble doc).component_outputs.all (fun kv =>
      (alKeys (iquery_assemble doc).vertices).contains kv.2.vertex_id) = true := by
    rw [List.all_eq_true]
    intro kv hkv
    rw [hco] at hkv
    obtain ⟨kv0, hkv0, hkveq⟩ := List.mem_map.mp hkv
    rw [← hkveq]
    simp only [List.contains, List.elem_eq_mem, decide_eq_true_eq]
    rcases hout kv0 hkv0 with h | h
    · exact hmemv kv0.2.vid (by omega) (by omega)
    · exact hmemv kv0.2.vid (by omega) (by omega)
  have c7 : (iquery_assemble doc).outputs.all (fun kv =>
      (alKeys (iquery_assemble doc).vertices).contains kv.2.vid) = true := by
    rw [List.all_eq_true]
    intro kv hkv
    rw [ho] at hkv
    simp only [List.contains, List.elem_eq_mem, decide_eq_true_eq]
    rcases hout kv hkv with h | h
    · exact hmemv kv.2.vid (by omega) (by omega)
    · exact hmemv kv.2.vid (by omega) (by omega)
  simp only [ir_valid]
  rw [c1, c2, c3, c4, c5, c6, c7]
  rfl

/-! ## Claims -/

/-- Claim C1: whenever the compiler records an output binding for a query
node, the binding's vertex id is the `parentVertexId` passed into the
recursive call and its field name is the node's own name — witnessed inside
the compiled result itself: every entry of the outputs map has an edge of
the edge map carrying the binding's field name as its `edge_name` (the
node's name), the binding's vertex as its source (the parent), while its
target — the vertex id freshly allocated for the node itself — differs from
the binding's vertex.  The hypothesis `parent_vid < vn` says the parent was
allocated before the ids the call may allocate, as holds in every actual
call. -/
theorem c1_output_anchored_at_parent (d : KdlDocument) (parent_vid vn en : Nat)
    (hp : parent_vid < vn) :
    ∀ kv ∈ (construct_edges d parent_vid vn en).outputs,
      ∃ i e, alGet (construct_edges d parent_vid vn en).edges i = some e ∧
        e.edge_name = kv.2.name ∧ e.from_vid = kv.2.vid ∧ e.to_vid ≠ kv.2.vid :=
  ce_bind_doc d parent_vid vn en hp

theorem c1_output_anchored_at_parent_witness :
    1 < 2 ∧
    ("name", (⟨"name", "String", 1⟩ : TFOutput)) ∈
      (construct_edges (.cons (.mk "name" ["\"@name\""] .none) .nil) 1 2 1).outputs ∧
    (∃ i e, alGet
        (construct_edges (.cons (.mk "name" ["\"@name\""] .none) .nil) 1 2 1).edges
        i = some e ∧
      e.edge_name = ("name", (⟨"name", "String", 1⟩ : TFOutput)).2.name ∧
      e.from_vid = ("name", (⟨"name", "String", 1⟩ : TFOutput)).2.vid ∧
      e.to_vid ≠ ("name", (⟨"name", "String", 1⟩ : TFOutput)).2.vid) :=
  ⟨by decide, by decide,
    c1_output_anchored_at_parent (.cons (.mk "name" ["\"@name\""] .none) .nil) 1 2 1
      (by decide) ("name", (⟨"name", "String", 1⟩ : TFOutput)) (by decide)⟩

/-- Claim C2: for a query tree with `N` nodes in total the compilation
holds exactly `N + 1` vertices and exactly `N` edges; the vertex keys are
the contiguous range `1, …, N + 1` and the edge keys the contiguous range
`1, …, N`, both listed — and therefore allocated — in strictly increasing
depth-first, sibling (document) order; the synthetic root vertex has id 1,
and the targets of the edges are exactly `2, …, N + 1`, so no edge enters
the root. -/
theorem c2_vertex_edge_ranges (doc : KdlDocument) :
    (iquery_assemble doc).vertices.length = doc_count doc + 1 ∧
    (iquery_assemble doc).edges.length = doc_count doc ∧
    alKeys (iquery_assemble doc).vertices = List.range' 1 (doc_count doc + 1) ∧
    alKeys (iquery_assemble doc).edges = List.range' 1 (doc_count doc) ∧
    (iquery_assemble doc).root = 1 ∧
    alGet (iquery_assemble doc).vertices 1 = some ⟨1, "node", none, []⟩ ∧
    (iquery_assemble doc).edges.map (fun kv => kv.2.to_vid) =
      List.range' 2 (doc_count doc) := by
  obtain ⟨hv, he, ho, hroot⟩ := assemble_parts doc
  have hkv := assemble_vertex_keys doc
  have hke := assemble_edge_keys doc
  refine ⟨?_, ?_, hkv, hke, hroot, ?_, assemble_to_vids doc⟩
  · have hl : (iquery_assemble doc).vertices.length =
        (alKeys (iquery_assemble doc).vertices).length := by simp [alKeys]
    rw [hl, hkv, List.length_range']
  · have hl : (iquery_assemble doc).edges.length =
        (alKeys (iquery_assemble doc).edges).length := by simp [alKeys]
    rw [hl, hke, List.length_range']
  · rw [hv]
    simp [alGet]

/-- Claim C6: compilation is total on every query tree: the indexed-query
conversion validates successfully, so the `try_into().unwrap()` cannot
panic and `iquery_and_arguments` always produces a result; and every vertex
and edge id the makers allocate is nonzero, so every
`NonZeroUsize::new(..).unwrap()` inside the id makers succeeds. -/
theorem c6_compilation_total (doc : KdlDocument) :
    (iquery_and_arguments doc).isSome = true ∧
    (alKeys (iquery_assemble doc).vertices).all
      (fun k => (nonzero_usize_new k).isSome) = true ∧
    (alKeys (iquery_assemble doc).edges).all
      (fun k => (nonzero_usize_new k).isSome) = true := by
  refine ⟨?_, ?_, ?_⟩
  · simp [iquery_and_arguments, try_into_indexed, ir_valid_assemble doc]
  · rw [List.all_eq_true]
    intro k hk
    rw [assemble_vertex_keys doc, List.mem_range'_1] at hk
    have hk0 : k ≠ 0 := by omega
    simp [nonzero_usize_new, hk0]
  · rw [List.all_eq_true]
    intro k hk
    rw [assemble_edge_keys doc, List.mem_range'_1] at hk
    have hk0 : k ≠ 0 := by omega
    simp [nonzero_usize_new, hk0]

/-- Claim C8: compilation is deterministic.  The whole pipeline from the
parsed query tree to the indexed query is a pure function of the tree: the
id makers are local monotone counters and traversal order is the fixed
document order, so compiling the same tree twice yields identical IR — the
same vertex ids, edge ids, edge names, output bindings and structure. -/
theorem c8_compilation_deterministic (d1 d2 : KdlDocument) (h : d1 = d2) :
    iquery_and_arguments d1 = iquery_and_arguments d2 := by
  rw [h]

theorem c8_compilation_deterministic_witness :
    KdlDocument.cons (.mk "kind" [] .none) .nil =
      KdlDocument.cons (.mk "kind" [] .none) .nil ∧
    iquery_and_arguments (.cons (.mk "kind" [] .none) .nil) =
      iquery_and_arguments (.cons (.mk "kind" [] .none) .nil) :=
  ⟨rfl, c8_compilation_deterministic (.cons (.mk "kind" [] .none) .nil)
    (.cons (.mk "kind" [] .none) .nil) rfl⟩

/-- Claim C10: duplicate output labels do not fail compilation; the final
output map holds exactly one binding per label — label lookup in the
compiled outputs returns the value of the LAST emission with that label in
the document-order emission list (the node occurring last in depth-first,
sibling order silently overwrites all earlier same-labelled bindings), the
output keys are duplicate-free, and the compilation still succeeds. -/
theorem c10_last_binding_wins (doc : KdlDocument) (label : String) :
    alGet (iquery_assemble doc).outputs label =
      lookup_last (bindings_doc doc 1 2).1 label ∧
    (alKeys (iquery_assemble doc).outputs).Nodup ∧
    (iquery_and_arguments doc).isSome = true := by
  obtain ⟨-, -, ho, -⟩ := assemble_parts doc
  obtain ⟨-, -, -, -, -, -, -, -, hnd⟩ := ce_shape_doc doc 1 2 1
  refine ⟨?_, ?_, ?_⟩
  · rw [ho]
    exact ce_outputs_doc doc 1 2 1 label
  · rw [ho]
    exact hnd
  · simp [iquery_and_arguments, try_into_indexed, ir_valid_assemble doc]

example :
    alGet (iquery_assemble (.cons (.mk "first" ["\"@x\""] .none)
      (.cons (.mk "second" ["\"@x\""] .none) .nil))).outputs "x" =
      some ⟨"second", "String", 1⟩ := by decide

/-- Claim C5 counterexample: the leaf literal `"@a@b"` is a quoted string
beginning with the sigil and is recognized, and the recorded label is
`a@b` with the leading sigil and the enclosing quotes removed — but that
label still CONTAINS a sigil character `@`, and the compiler records it as
an output binding, refuting the claim that a recorded label never contains
sigil or quote characters. -/
theorem c5_counterexample :
    output_recognized "\"@a@b\"" = true ∧
    (construct_edges (.cons (.mk "name" ["\"@a@b\""] .none) .nil) 1 2 1).outputs =
      [("a@b", ⟨"name", "String", 1⟩)] ∧
    '@' ∈ "a@b".toList := by
  refine ⟨by decide, by decide, by decide⟩

/-- Claim C5 (amended): the extractor recognizes a binding exactly when the
raw leaf literal begins with the two characters `"@`; on a match the label
is the literal with this lead removed and, when the remainder ends with a
quotation mark, that final mark removed — when it does not, the raw literal
itself (quotes, sigil and all) becomes the label.  Nothing removes sigil or
quote characters occurring inside the label. -/
theorem c5_extractor_amended (v : String) :
    extract_label v = extract_label_spec v := by
  have hl2 : ("\"@" : String).length = 2 := rfl
  have hl1 : ("\"" : String).length = 1 := rfl
  simp only [extract_label, extract_label_spec, output_recognized, starts_with,
    output_label, strip_front, strip_back, hl2, hl1, beq_iff_eq]
  by_cases h1 : v.take 2 = "\"@"
  · simp only [h1, if_true]
    by_cases h2 : (v.drop 2).takeRight 1 = "\""
    · simp [h2]
    · simp [h2]
  · simp [h1]

/-- Claim C3 counterexample: the value stored under the requested key
`name` is of tagged kind — not string kind — yet property resolution yields
the string inside the tag, because serde_yaml's `as_str` accessor sees
through `!Tag` wrappers; the claim that every non-string kind under the key
(including tagged) yields nothing is therefore false on the code. -/
theorem c3_counterexample :
    typename (.tagged "!T" (.string "other-server")) = "tagged" ∧
    resolve_property
      (.mapping [(.string "name", .tagged "!T" (.string "other-server"))])
      "name" = some "other-server" :=
  ⟨rfl, rfl⟩

/-- Claim C3 (amended): property resolution yields a pair exactly when the
active value, after stripping `!Tag` wrappers, is a mapping containing the
requested key and the value stored under the key, again after stripping
`!Tag` wrappers, is a string; the yielded scalar is exactly that string;
numbers, booleans, nulls, sequences and mappings under the key, and missing
keys, yield nothing — there is no coercion or stringification. -/
theorem c3_resolve_property_amended (node : YamlValue) (property_name : String) :
    resolve_property node property_name = resolve_property_spec node property_name := by
  simp only [resolve_property, resolve_property_spec, yaml_get]
  cases h : untag_ref node with
  | mapping m =>
    cases hm : mapping_get m (.string property_name) with
    | none => simp [hm, as_str]
    | some v => simp [hm, as_str]
  | null => rfl
  | bool b => rfl
  | number x => rfl
  | string s => rfl
  | sequence xs => rfl
  | tagged t w => rfl

/-- Claim C4 counterexample: the active value is of tagged kind — neither a
sequence nor a mapping — yet wildcard neighbor resolution fans out over the
sequence wrapped inside the tag, because serde_yaml's `is_sequence` and
`as_sequence` see through `!Tag` wrappers; the claim that such a context
yields nothing is therefore false on the code. -/
theorem c4_counterexample :
    typename (.tagged "!T" (.sequence [.null, .bool true])) = "tagged" ∧
    resolve_neighbors (.tagged "!T" (.sequence [.null, .bool true])) "*" =
      some [.null, .bool true] := by
  constructor
  · rfl
  · rfl

/-- Claim C4 (amended): per context, when the active value after stripping
`!Tag` wrappers is a sequence, the wildcard edge `*` yields its elements —
one child per element, in original order — and any other edge name yields
nothing; when it is a mapping, an edge name stored as a string key
(wildcard included) yields exactly the one value under that key; every
other kind yields nothing and the context is dropped. -/
theorem c4_resolve_neighbors_amended (active : YamlValue) (edge_name : String) :
    resolve_neighbors active edge_name = resolve_neighbors_spec active edge_name := by
  simp only [resolve_neighbors, resolve_neighbors_spec, yaml_get, is_sequence,
    as_sequence]
  cases h : untag_ref active with
  | sequence xs =>
    by_cases he : edge_name = "*"
    · simp [he]
    · simp [he]
  | mapping m =>
    cases hm : mapping_get m (.string edge_name) with
    | none => simp [hm]
    | some v => simp [hm]
  | null => simp
  | bool b => simp
  | number x => simp
  | string s => simp
  | tagged t w => simp

/-- Claim C9: when the edge name is the wildcard marker `*` and the active
value is not a sequence but a mapping storing the literal string key `*`,
neighbor resolution does not drop the context: it yields exactly one child,
the value stored under the `*` key — the wildcard only means fan-out when
the active value is a sequence. -/
theorem c9_wildcard_key_on_mapping (m : List (YamlValue × YamlValue))
    (value : YamlValue) (h : mapping_get m (.string "*") = some value) :
    resolve_neighbors (.mapping m) "*" = some [value] := by
  simp only [resolve_neighbors, is_sequence, as_sequence, yaml_get, untag_ref, h]
  simp

theorem c9_wildcard_key_on_mapping_witness :
    mapping_get [(YamlValue.string "*", YamlValue.null)] (.string "*") =
      some .null ∧
    resolve_neighbors (.mapping [(YamlValue.string "*", YamlValue.null)]) "*" =
      some [.null] :=
  ⟨rfl, c9_wildcard_key_on_mapping [(YamlValue.string "*", YamlValue.null)] .null rfl⟩

/-- Claim C7: if parsing the query text or parsing the document text fails,
`run` aborts with a failing outcome (the source `unwrap`s the parse result,
so the abort is a panic, modelled as the non-success outcome `panicked`)
before any compilation or interpretation — the outcome does not depend on
the engine at all; and when both parses succeed and the engine fails, `run`
returns exactly that failure, never a partial row list; rows are returned
only when the engine succeeds, and then all of them. -/
theorem c7_run_error_policy :
    (∀ msg yp i i2, run (.error msg) yp i = run (.error msg) yp i2 ∧
      (run (.error msg) yp i).succeeded = false) ∧
    (∀ qp msg i i2, run qp (.error msg) i = run qp (.error msg) i2 ∧
      (run qp (.error msg) i).succeeded = false) ∧
    (∀ kdl root i msg q vars, iquery_and_arguments kdl = some (q, vars) →
      i q vars root = .error msg → run (.ok kdl) (.ok root) i = .failure msg) ∧
    (∀ kdl root i rows q vars, iquery_and_arguments kdl = some (q, vars) →
      i q vars root = .ok rows → run (.ok kdl) (.ok root) i = .success rows) := by
  refine ⟨?_, ?_, ?_, ?_⟩
  · intro msg yp i i2
    exact ⟨rfl, rfl⟩
  · intro qp msg i i2
    cases qp with
    | error e => exact ⟨rfl, rfl⟩
    | ok kdl => exact ⟨rfl, rfl⟩
  · intro kdl root i msg q vars hq hi
    simp [run, hq, hi]
  · intro kdl root i rows q vars hq hi
    simp [run, hq, hi]

theorem c7_run_error_policy_witness :
    iquery_and_arguments .nil =
      some (⟨1, [(1, ⟨1, "node", none, []⟩)], [], []⟩, []) ∧
    run (.ok .nil) (.ok .null)
      (fun _ _ _ => (Except.error "boom" : Except String (List Row))) =
      .failure "boom" :=
  ⟨by decide,
    c7_run_error_policy.2.2.1 .nil .null
      (fun _ _ _ => (Except.error "boom" : Except String (List Row))) "boom"
      ⟨1, [(1, ⟨1, "node", none, []⟩)], [], []⟩ [] (by decide) rfl⟩

example : construct_edges .nil 7 2 1 = ⟨[], [], [], 2, 1⟩ := rfl

example :
    construct_edges (.cons (.mk "name" ["\"@name\""] .none) .nil) 1 2 1 =
      ⟨[(2, ⟨2, "node", none, []⟩)],
       [(1, ⟨1, 1, 2, "name", [], false, none⟩)],
       [("name", ⟨"name", "String", 1⟩)], 3, 2⟩ := rfl

example :
    iquery_and_arguments (.cons (.mk "kind" [] .none) .nil) =
      some (⟨1, [(1, ⟨1, "node", none, []⟩), (2, ⟨2, "node", none, []⟩)],
        [(1, ⟨1, 1, 2, "kind", [], false, none⟩)], []⟩, []) := by decide

example :
    resolve_property
      (.mapping [(.string "name", .string "other-server"),
        (.string "foo", .string "bar")]) "name" = some "other-server" := rfl

example :
    resolve_property (.mapping [(.string "replicas", .number 3)]) "replicas" =
      none := rfl

example : resolve_property (.sequence [.string "other-server"]) "name" = none := rfl

example :
    resolve_neighbors (.sequence [.string "a", .string "b", .string "c"]) "*" =
      some [.string "a", .string "b", .string "c"] := rfl

example :
    resolve_neighbors (.mapping [(.string "spec", .null)]) "missing" = none := rfl

example :
    resolve_property_ctxs [.mapping [(.string "k", .string "v")], .null] "k" =
      [(.mapping [(.string "k", .string "v")], "v")] := rfl
